import Mathlib

/-!
Verification of the rxrust operator core (observer protocol state machines).

Each operator of the source is a small observer state machine: it receives
upstream notifications (`next`, `error`, `complete`) and pushes notifications
to a downstream observer, possibly touching a subscription.  We embed every
operator's observer shallowly: the observer state becomes a structure, each
`Observer` method becomes one arm of a step function over an event type, and
the notifications delivered downstream are accumulated in an `out` field.
Runs are folds of the step function over an upstream event list.
-/

set_option maxHeartbeats 1000000

namespace Rx

/-- A notification of the observer protocol: `next(v)`, `error(e)` or
`complete`, for items of type `α` and errors of type `ε`. -/
inductive Ev (α : Type) (ε : Type) where
  | next (v : α)
  | err (e : ε)
  | complete
  deriving DecidableEq

/-- The values carried by `next` notifications of an event list, in order. -/
def nextsOf {α ε : Type} : List (Ev α ε) → List α
  | [] => []
  | Ev.next v :: r => v :: nextsOf r
  | Ev.err _ :: r => nextsOf r
  | Ev.complete :: r => nextsOf r

/-- The number of `complete` notifications in an event list. -/
def completesOf {α ε : Type} : List (Ev α ε) → Nat
  | [] => 0
  | Ev.next _ :: r => completesOf r
  | Ev.err _ :: r => completesOf r
  | Ev.complete :: r => completesOf r + 1

/-- The error payloads of an event list, in order. -/
def errsOf {α ε : Type} : List (Ev α ε) → List ε
  | [] => []
  | Ev.next _ :: r => errsOf r
  | Ev.err e :: r => e :: errsOf r
  | Ev.complete :: r => errsOf r

@[simp] theorem nextsOf_nil {α ε : Type} : nextsOf ([] : List (Ev α ε)) = [] := rfl

@[simp] theorem nextsOf_cons_next {α ε : Type} (v : α) (r : List (Ev α ε)) :
    nextsOf (Ev.next v :: r) = v :: nextsOf r := rfl

@[simp] theorem nextsOf_cons_err {α ε : Type} (e : ε) (r : List (Ev α ε)) :
    nextsOf (Ev.err e :: r) = nextsOf r := rfl

@[simp] theorem nextsOf_cons_complete {α ε : Type} (r : List (Ev α ε)) :
    nextsOf (Ev.complete :: r) = nextsOf r := rfl

@[simp] theorem nextsOf_append {α ε : Type} (l₁ l₂ : List (Ev α ε)) :
    nextsOf (l₁ ++ l₂) = nextsOf l₁ ++ nextsOf l₂ := by
  induction l₁ with
  | nil => rfl
  | cons e r ih => cases e <;> simp [nextsOf, ih]

@[simp] theorem completesOf_nil {α ε : Type} : completesOf ([] : List (Ev α ε)) = 0 := rfl

@[simp] theorem completesOf_cons_next {α ε : Type} (v : α) (r : List (Ev α ε)) :
    completesOf (Ev.next v :: r) = completesOf r := rfl

@[simp] theorem completesOf_cons_err {α ε : Type} (e : ε) (r : List (Ev α ε)) :
    completesOf (Ev.err e :: r) = completesOf r := rfl

@[simp] theorem completesOf_cons_complete {α ε : Type} (r : List (Ev α ε)) :
    completesOf (Ev.complete :: r) = completesOf r + 1 := rfl

@[simp] theorem completesOf_append {α ε : Type} (l₁ l₂ : List (Ev α ε)) :
    completesOf (l₁ ++ l₂) = completesOf l₁ + completesOf l₂ := by
  induction l₁ with
  | nil => simp
  | cons e r ih => cases e <;> simp [completesOf, ih] <;> omega

@[simp] theorem errsOf_nil {α ε : Type} : errsOf ([] : List (Ev α ε)) = [] := rfl

@[simp] theorem errsOf_cons_next {α ε : Type} (v : α) (r : List (Ev α ε)) :
    errsOf (Ev.next v :: r) = errsOf r := rfl

@[simp] theorem errsOf_cons_err {α ε : Type} (e : ε) (r : List (Ev α ε)) :
    errsOf (Ev.err e :: r) = e :: errsOf r := rfl

@[simp] theorem errsOf_cons_complete {α ε : Type} (r : List (Ev α ε)) :
    errsOf (Ev.complete :: r) = errsOf r := rfl

@[simp] theorem errsOf_append {α ε : Type} (l₁ l₂ : List (Ev α ε)) :
    errsOf (l₁ ++ l₂) = errsOf l₁ ++ errsOf l₂ := by
  induction l₁ with
  | nil => rfl
  | cons e r ih => cases e <;> simp [errsOf, ih]

@[simp] theorem nextsOf_map_next {α ε : Type} (vs : List α) :
    nextsOf (vs.map (Ev.next (ε := ε))) = vs := by
  induction vs with
  | nil => rfl
  | cons v r ih => simp [nextsOf, ih]

/-- Runs an observer state machine over a list of upstream events. -/
def runFold {σ E : Type} (step : σ → E → σ) : List E → σ → σ
  | [], s => s
  | e :: r, s => runFold step r (step s e)

@[simp] theorem runFold_nil {σ E : Type} (step : σ → E → σ) (s : σ) :
    runFold step [] s = s := rfl

@[simp] theorem runFold_cons {σ E : Type} (step : σ → E → σ) (e : E) (r : List E) (s : σ) :
    runFold step (e :: r) s = runFold step r (step s e) := rfl

theorem runFold_append {σ E : Type} (step : σ → E → σ) (l₁ l₂ : List E) (s : σ) :
    runFold step (l₁ ++ l₂) s = runFold step l₂ (runFold step l₁ s) := by
  induction l₁ generalizing s with
  | nil => rfl
  | cons e r ih => simp [ih]

/-- Predicate `Interleave l r t`: `t` is an order-preserving interleaving of the event
lists `l` and `r` — the shape of traces a pair of upstream sources can
deliver to a shared combinator observer. -/
inductive Interleave {E : Type} : List E → List E → List E → Prop where
  | nil : Interleave [] [] []
  | left {x : E} {l r t : List E} : Interleave l r t → Interleave (x :: l) r (x :: t)
  | right {x : E} {l r t : List E} : Interleave l r t → Interleave l (x :: r) (x :: t)

theorem interleave_nil_left {E : Type} (r : List E) : Interleave [] r r := by
  induction r with
  | nil => exact Interleave.nil
  | cons x t ih => exact Interleave.right ih

theorem interleave_append {E : Type} (l r : List E) : Interleave l r (l ++ r) := by
  induction l with
  | nil => simpa using interleave_nil_left r
  | cons x t ih => exact Interleave.left ih

/-! Section `zip(a, b)` — src/rxrust/src/ops/zip.rs

`ZipObserver` holds two FIFO buffers `a`, `b` (`VecDeque`), a `completed_one`
flag and the shared subscription.  Side observers `AObserver`/`BObserver` tag
values as `ItemA`/`ItemB` and proxy `error`/`complete` untagged. -/

/-- Notifications reaching `ZipObserver::next/error/complete`: a value tagged
with its side (`ZipItem::ItemA`/`ItemB`), an error, or an (untagged)
completion proxied from either side. -/
inductive ZEv (α β ε : Type) where
  | nextA (v : α)
  | nextB (v : β)
  | err (e : ε)
  | complete
  deriving DecidableEq

/-- State of `ZipObserver`: the two buffers, the `completed_one` flag, the
shared subscription (`closed`), and the notifications delivered downstream. -/
structure ZipState (α β ε : Type) where
  qa : List α
  qb : List β
  completedOne : Bool
  closed : Bool
  out : List (Ev (α × β) ε)
  deriving DecidableEq

/-- Methods `next`, `error`, `complete` of `ZipObserver` (zip.rs lines
119-150): on a tagged value, pop the other buffer and emit the pair if
non-empty, else push; on error, forward and unsubscribe; on complete, emit
`complete` and unsubscribe only if the other side already completed. -/
def zipStep {α β ε : Type} (s : ZipState α β ε) : ZEv α β ε → ZipState α β ε
  | ZEv.nextA v =>
    match s.qb with
    | w :: rest => { s with qb := rest, out := s.out ++ [Ev.next (v, w)] }
    | [] => { s with qa := s.qa ++ [v] }
  | ZEv.nextB w =>
    match s.qa with
    | v :: rest => { s with qa := rest, out := s.out ++ [Ev.next (v, w)] }
    | [] => { s with qb := s.qb ++ [w] }
  | ZEv.err e => { s with out := s.out ++ [Ev.err e], closed := true }
  | ZEv.complete =>
    if s.completedOne then { s with closed := true, out := s.out ++ [Ev.complete] }
    else { s with completedOne := true }

/-- A run of `ZipObserver` over a list of incoming notifications. -/
def zipRun {α β ε : Type} (tr : List (ZEv α β ε)) (s : ZipState α β ε) : ZipState α β ε :=
  runFold zipStep tr s

/-- The freshly constructed `ZipObserver` (`ZipObserver::new`). -/
def zipInit {α β ε : Type} : ZipState α β ε :=
  { qa := [], qb := [], completedOne := false, closed := false, out := [] }

/-- The side-A values of a zip trace, in order. -/
def seenA {α β ε : Type} : List (ZEv α β ε) → List α
  | [] => []
  | ZEv.nextA v :: r => v :: seenA r
  | ZEv.nextB _ :: r => seenA r
  | ZEv.err _ :: r => seenA r
  | ZEv.complete :: r => seenA r

/-- The side-B values of a zip trace, in order. -/
def seenB {α β ε : Type} : List (ZEv α β ε) → List β
  | [] => []
  | ZEv.nextA _ :: r => seenB r
  | ZEv.nextB v :: r => v :: seenB r
  | ZEv.err _ :: r => seenB r
  | ZEv.complete :: r => seenB r

/-- The number of completion notifications in a zip trace. -/
def zCompletes {α β ε : Type} : List (ZEv α β ε) → Nat
  | [] => 0
  | ZEv.complete :: r => zCompletes r + 1
  | ZEv.nextA _ :: r => zCompletes r
  | ZEv.nextB _ :: r => zCompletes r
  | ZEv.err _ :: r => zCompletes r

/-- The event stream a well-behaved side-A source delivers: its values in
order, then `complete` iff it completed. -/
def zipStreamA {α β ε : Type} (vs : List α) (c : Bool) : List (ZEv α β ε) :=
  vs.map ZEv.nextA ++ if c then [ZEv.complete] else []

/-- The event stream a well-behaved side-B source delivers. -/
def zipStreamB {α β ε : Type} (vs : List β) (c : Bool) : List (ZEv α β ε) :=
  vs.map ZEv.nextB ++ if c then [ZEv.complete] else []

/-- Abstraction relation for `ZipObserver`: relative to the side values
`sa`, `sb` and the completion count `c` processed so far, the buffers hold
exactly the unmatched suffixes, the pairs delivered downstream are the
index-wise `zip`, and `completed_one` records whether a completion arrived. -/
def ZipAbs {α β ε : Type} (sa : List α) (sb : List β) (c : Nat) (s : ZipState α β ε) : Prop :=
  s.qa = sa.drop sb.length ∧ s.qb = sb.drop sa.length ∧
  s.completedOne = decide (0 < c) ∧
  nextsOf s.out = sa.zip sb ∧ completesOf s.out = c - 1

theorem zip_append_of_le {γ δ : Type} (l₁ : List γ) (l₂ : List δ) (m : List γ)
    (h : l₂.length ≤ l₁.length) : (l₁ ++ m).zip l₂ = l₁.zip l₂ := by
  induction l₁ generalizing l₂ with
  | nil =>
    have : l₂ = [] := List.length_eq_zero.mp (Nat.le_zero.mp h)
    simp [this]
  | cons a t ih =>
    cases l₂ with
    | nil => simp
    | cons b u =>
      simp only [List.cons_append, List.zip_cons_cons, List.cons.injEq, true_and]
      exact ih u (Nat.succ_le_succ_iff.mp h)

theorem zip_append_of_le_left {γ δ : Type} (l₁ : List γ) (l₂ : List δ) (m : List δ)
    (h : l₁.length ≤ l₂.length) : l₁.zip (l₂ ++ m) = l₁.zip l₂ := by
  induction l₁ generalizing l₂ with
  | nil => simp
  | cons a t ih =>
    cases l₂ with
    | nil => simp at h
    | cons b u =>
      simp only [List.cons_append, List.zip_cons_cons, List.cons.injEq, true_and]
      exact ih u (Nat.succ_le_succ_iff.mp h)

theorem zip_snoc_of_drop {γ δ : Type} (l₁ : List γ) (l₂ : List δ) (v : γ)
    (w : δ) (rest : List δ) (h : l₂.drop l₁.length = w :: rest) :
    (l₁ ++ [v]).zip l₂ = l₁.zip l₂ ++ [(v, w)] := by
  induction l₁ generalizing l₂ with
  | nil =>
    simp only [List.length_nil, List.drop_zero] at h
    simp [h]
  | cons a t ih =>
    cases l₂ with
    | nil => simp at h
    | cons b u =>
      simp only [List.length_cons, List.drop_succ_cons] at h
      simp only [List.cons_append, List.zip_cons_cons, List.cons.injEq, true_and]
      exact ih u h

theorem zip_snoc_of_drop_left {γ δ : Type} (l₁ : List γ) (l₂ : List δ) (w : δ)
    (v : γ) (rest : List γ) (h : l₁.drop l₂.length = v :: rest) :
    l₁.zip (l₂ ++ [w]) = l₁.zip l₂ ++ [(v, w)] := by
  induction l₂ generalizing l₁ with
  | nil =>
    simp only [List.length_nil, List.drop_zero] at h
    simp [h]
  | cons b u ih =>
    cases l₁ with
    | nil => simp at h
    | cons a t =>
      simp only [List.length_cons, List.drop_succ_cons] at h
      simp only [List.cons_append, List.zip_cons_cons, List.cons.injEq, true_and]
      exact ih t h

theorem drop_cons_of_drop {γ : Type} (l : List γ) (n : Nat) (x : γ) (rest : List γ)
    (h : l.drop n = x :: rest) : l.drop (n + 1) = rest := by
  have h₂ : (l.drop n).tail = l.drop (n + 1) := List.tail_drop l n
  rw [h] at h₂
  exact h₂.symm

theorem zipStep_abs {α β ε : Type} {sa : List α} {sb : List β} {c : Nat}
    {s : ZipState α β ε} (habs : ZipAbs sa sb c s) (e : ZEv α β ε) :
    ZipAbs (sa ++ seenA [e]) (sb ++ seenB [e]) (c + zCompletes [e]) (zipStep s e) := by
  obtain ⟨hqa, hqb, hc, hnp, hcp⟩ := habs
  cases e with
  | nextA v =>
    simp only [seenA, seenB, zCompletes, List.append_nil, Nat.add_zero]
    rcases hq : s.qb with _ | ⟨w, rest⟩
    · have hstep : zipStep s (ZEv.nextA v) = { s with qa := s.qa ++ [v] } := by
        simp [zipStep, hq]
      have hnil : sb.drop sa.length = [] := by rw [← hqb, hq]
      have hle : sb.length ≤ sa.length := by
        have h₂ := congrArg List.length hnil
        simp at h₂
        omega
      refine ⟨?_, ?_, ?_, ?_, ?_⟩
      · rw [hstep]
        show s.qa ++ [v] = (sa ++ [v]).drop sb.length
        rw [hqa, List.drop_append_of_le_length hle]
      · rw [hstep]
        show s.qb = sb.drop (sa ++ [v]).length
        rw [hq]
        exact (List.drop_eq_nil_iff.mpr (by simp; omega)).symm
      · rw [hstep]; exact hc
      · rw [hstep]
        show nextsOf s.out = (sa ++ [v]).zip sb
        rw [hnp, zip_append_of_le sa sb [v] hle]
      · rw [hstep]; exact hcp
    · have hstep : zipStep s (ZEv.nextA v) =
          { s with qb := rest, out := s.out ++ [Ev.next (v, w)] } := by
        simp [zipStep, hq]
      have hdrop : sb.drop sa.length = w :: rest := by rw [← hqb, hq]
      have hlt : sa.length < sb.length := by
        by_contra hcon
        rw [List.drop_eq_nil_iff.mpr (by omega)] at hdrop
        exact List.noConfusion hdrop
      refine ⟨?_, ?_, ?_, ?_, ?_⟩
      · rw [hstep]
        show s.qa = (sa ++ [v]).drop sb.length
        rw [hqa, List.drop_eq_nil_iff.mpr (by omega),
          (List.drop_eq_nil_iff.mpr (by simp; omega) : (sa ++ [v]).drop sb.length = [])]
      · rw [hstep]
        show rest = sb.drop (sa ++ [v]).length
        have hlen : (sa ++ [v]).length = sa.length + 1 := by simp
        rw [hlen, drop_cons_of_drop sb sa.length w rest hdrop]
      · rw [hstep]; exact hc
      · rw [hstep]
        show nextsOf (s.out ++ [Ev.next (v, w)]) = (sa ++ [v]).zip sb
        rw [nextsOf_append, hnp, zip_snoc_of_drop sa sb v w rest hdrop]
        simp [nextsOf]
      · rw [hstep]
        show completesOf (s.out ++ [Ev.next (v, w)]) = c - 1
        rw [completesOf_append, hcp]
        simp [completesOf]
  | nextB w =>
    simp only [seenA, seenB, zCompletes, List.append_nil, Nat.add_zero]
    rcases hq : s.qa with _ | ⟨v, rest⟩
    · have hstep : zipStep s (ZEv.nextB w) = { s with qb := s.qb ++ [w] } := by
        simp [zipStep, hq]
      have hnil : sa.drop sb.length = [] := by rw [← hqa, hq]
      have hle : sa.length ≤ sb.length := by
        have h₂ := congrArg List.length hnil
        simp at h₂
        omega
      refine ⟨?_, ?_, ?_, ?_, ?_⟩
      · rw [hstep]
        show s.qa = sa.drop (sb ++ [w]).length
        rw [hq]
        exact (List.drop_eq_nil_iff.mpr (by simp; omega)).symm
      · rw [hstep]
        show s.qb ++ [w] = (sb ++ [w]).drop sa.length
        rw [hqb, List.drop_append_of_le_length hle]
      · rw [hstep]; exact hc
      · rw [hstep]
        show nextsOf s.out = sa.zip (sb ++ [w])
        rw [hnp, zip_append_of_le_left sa sb [w] hle]
      · rw [hstep]; exact hcp
    · have hstep : zipStep s (ZEv.nextB w) =
          { s with qa := rest, out := s.out ++ [Ev.next (v, w)] } := by
        simp [zipStep, hq]
      have hdrop : sa.drop sb.length = v :: rest := by rw [← hqa, hq]
      have hlt : sb.length < sa.length := by
        by_contra hcon
        rw [List.drop_eq_nil_iff.mpr (by omega)] at hdrop
        exact List.noConfusion hdrop
      refine ⟨?_, ?_, ?_, ?_, ?_⟩
      · rw [hstep]
        show rest = sa.drop (sb ++ [w]).length
        have hlen : (sb ++ [w]).length = sb.length + 1 := by simp
        rw [hlen, drop_cons_of_drop sa sb.length v rest hdrop]
      · rw [hstep]
        show s.qb = (sb ++ [w]).drop sa.length
        rw [hqb, List.drop_eq_nil_iff.mpr (by omega),
          (List.drop_eq_nil_iff.mpr (by simp; omega) : (sb ++ [w]).drop sa.length = [])]
      · rw [hstep]; exact hc
      · rw [hstep]
        show nextsOf (s.out ++ [Ev.next (v, w)]) = sa.zip (sb ++ [w])
        rw [nextsOf_append, hnp, zip_snoc_of_drop_left sa sb w v rest hdrop]
        simp [nextsOf]
      · rw [hstep]
        show completesOf (s.out ++ [Ev.next (v, w)]) = c - 1
        rw [completesOf_append, hcp]
        simp [completesOf]
  | err e =>
    simp only [seenA, seenB, zCompletes, List.append_nil, Nat.add_zero]
    have hstep : zipStep s (ZEv.err e) =
        { s with out := s.out ++ [Ev.err e], closed := true } := rfl
    refine ⟨?_, ?_, ?_, ?_, ?_⟩
    · rw [hstep]; exact hqa
    · rw [hstep]; exact hqb
    · rw [hstep]; exact hc
    · rw [hstep]
      show nextsOf (s.out ++ [Ev.err e]) = sa.zip sb
      rw [nextsOf_append, hnp]
      simp [nextsOf]
    · rw [hstep]
      show completesOf (s.out ++ [Ev.err e]) = c - 1
      rw [completesOf_append, hcp]
      simp [completesOf]
  | complete =>
    simp only [seenA, seenB, zCompletes, List.append_nil, Nat.add_zero, Nat.zero_add]
    by_cases hflag : s.completedOne = true
    · have hstep : zipStep s ZEv.complete =
          { s with closed := true, out := s.out ++ [Ev.complete] } := by
        simp [zipStep, hflag]
      have hcpos : 0 < c := by
        rw [hflag] at hc
        exact of_decide_eq_true hc.symm
      refine ⟨?_, ?_, ?_, ?_, ?_⟩
      · rw [hstep]; exact hqa
      · rw [hstep]; exact hqb
      · rw [hstep]
        show s.completedOne = decide (0 < c + 1)
        rw [hflag]
        simp
      · rw [hstep]
        show nextsOf (s.out ++ [Ev.complete]) = sa.zip sb
        rw [nextsOf_append, hnp]
        simp [nextsOf]
      · rw [hstep]
        show completesOf (s.out ++ [Ev.complete]) = c + 1 - 1
        rw [completesOf_append, hcp]
        simp [completesOf]
        omega
    · have hflag₂ : s.completedOne = false := Bool.not_eq_true _ ▸ eq_false_of_ne_true hflag
      have hstep : zipStep s ZEv.complete = { s with completedOne := true } := by
        simp [zipStep, hflag₂]
      have hczero : c = 0 := by
        rw [hflag₂] at hc
        have := of_decide_eq_false hc.symm
        omega
      refine ⟨?_, ?_, ?_, ?_, ?_⟩
      · rw [hstep]; exact hqa
      · rw [hstep]; exact hqb
      · rw [hstep]
        show true = decide (0 < c + 1)
        simp
      · rw [hstep]; exact hnp
      · rw [hstep]
        show completesOf s.out = c + 1 - 1
        rw [hczero] at hcp ⊢
        simpa using hcp

theorem seenA_cons {α β ε : Type} (e : ZEv α β ε) (tr : List (ZEv α β ε)) :
    seenA (e :: tr) = seenA [e] ++ seenA tr := by
  cases e <;> simp [seenA]

theorem seenB_cons {α β ε : Type} (e : ZEv α β ε) (tr : List (ZEv α β ε)) :
    seenB (e :: tr) = seenB [e] ++ seenB tr := by
  cases e <;> simp [seenB]

theorem zCompletes_cons {α β ε : Type} (e : ZEv α β ε) (tr : List (ZEv α β ε)) :
    zCompletes (e :: tr) = zCompletes [e] + zCompletes tr := by
  cases e <;> simp [zCompletes] <;> omega

theorem zipRun_abs {α β ε : Type} (tr : List (ZEv α β ε)) :
    ∀ (sa : List α) (sb : List β) (c : Nat) (s : ZipState α β ε),
    ZipAbs sa sb c s →
    ZipAbs (sa ++ seenA tr) (sb ++ seenB tr) (c + zCompletes tr) (zipRun tr s) := by
  induction tr with
  | nil =>
    intro sa sb c s h
    simpa [zipRun, seenA, seenB, zCompletes] using h
  | cons e r ih =>
    intro sa sb c s h
    have h₁ := zipStep_abs h e
    have h₂ := ih (sa ++ seenA [e]) (sb ++ seenB [e]) (c + zCompletes [e]) (zipStep s e) h₁
    rw [seenA_cons, seenB_cons, zCompletes_cons]
    simpa [zipRun, List.append_assoc, Nat.add_assoc] using h₂

theorem interleave_seenA {α β ε : Type} {l r t : List (ZEv α β ε)}
    (h : Interleave l r t) (hr : seenA r = []) : seenA t = seenA l := by
  induction h with
  | nil => rfl
  | left h ih =>
    rename_i x _ _ _
    cases x <;> simp [seenA, ih hr]
  | right h ih =>
    rename_i x _ _ _
    cases x with
    | nextA v => simp [seenA] at hr
    | nextB v =>
      simp only [seenA] at hr ⊢
      exact ih hr
    | err e =>
      simp only [seenA] at hr ⊢
      exact ih hr
    | complete =>
      simp only [seenA] at hr ⊢
      exact ih hr

theorem interleave_seenB {α β ε : Type} {l r t : List (ZEv α β ε)}
    (h : Interleave l r t) (hl : seenB l = []) : seenB t = seenB r := by
  induction h with
  | nil => rfl
  | left h ih =>
    rename_i x _ _ _
    cases x with
    | nextB v => simp [seenB] at hl
    | nextA v =>
      simp only [seenB] at hl ⊢
      exact ih hl
    | err e =>
      simp only [seenB] at hl ⊢
      exact ih hl
    | complete =>
      simp only [seenB] at hl ⊢
      exact ih hl
  | right h ih =>
    rename_i x _ _ _
    cases x <;> simp [seenB, ih hl]

theorem interleave_zCompletes {α β ε : Type} {l r t : List (ZEv α β ε)}
    (h : Interleave l r t) : zCompletes t = zCompletes l + zCompletes r := by
  induction h with
  | nil => rfl
  | left h ih =>
    rename_i x _ _ _
    cases x <;> simp [zCompletes, ih] <;> omega
  | right h ih =>
    rename_i x _ _ _
    cases x <;> simp [zCompletes_cons, zCompletes, ih] <;> omega

theorem seenA_map_nextA {α β ε : Type} (vs : List α) :
    seenA (vs.map (ZEv.nextA (β := β) (ε := ε))) = vs := by
  induction vs with
  | nil => rfl
  | cons v r ih => simp [seenA, ih]

theorem seenB_map_nextA {α β ε : Type} (vs : List α) :
    seenB (vs.map (ZEv.nextA (β := β) (ε := ε))) = [] := by
  induction vs with
  | nil => rfl
  | cons v r ih => simp [seenB, ih]

theorem seenA_map_nextB {α β ε : Type} (vs : List β) :
    seenA (vs.map (ZEv.nextB (α := α) (ε := ε))) = [] := by
  induction vs with
  | nil => rfl
  | cons v r ih => simp [seenA, ih]

theorem seenB_map_nextB {α β ε : Type} (vs : List β) :
    seenB (vs.map (ZEv.nextB (α := α) (ε := ε))) = vs := by
  induction vs with
  | nil => rfl
  | cons v r ih => simp [seenB, ih]

theorem zCompletes_map_nextA {α β ε : Type} (vs : List α) :
    zCompletes (vs.map (ZEv.nextA (β := β) (ε := ε))) = 0 := by
  induction vs with
  | nil => rfl
  | cons v r ih => simp [zCompletes, ih]

theorem zCompletes_map_nextB {α β ε : Type} (vs : List β) :
    zCompletes (vs.map (ZEv.nextB (α := α) (ε := ε))) = 0 := by
  induction vs with
  | nil => rfl
  | cons v r ih => simp [zCompletes, ih]

theorem seenA_append {α β ε : Type} (l₁ l₂ : List (ZEv α β ε)) :
    seenA (l₁ ++ l₂) = seenA l₁ ++ seenA l₂ := by
  induction l₁ with
  | nil => rfl
  | cons e r ih => cases e <;> simp [seenA, ih]

theorem seenB_append {α β ε : Type} (l₁ l₂ : List (ZEv α β ε)) :
    seenB (l₁ ++ l₂) = seenB l₁ ++ seenB l₂ := by
  induction l₁ with
  | nil => rfl
  | cons e r ih => cases e <;> simp [seenB, ih]

theorem zCompletes_append {α β ε : Type} (l₁ l₂ : List (ZEv α β ε)) :
    zCompletes (l₁ ++ l₂) = zCompletes l₁ + zCompletes l₂ := by
  induction l₁ with
  | nil => simp [zCompletes]
  | cons e r ih => cases e <;> simp [zCompletes, ih] <;> omega

theorem zipInit_abs {α β ε : Type} : ZipAbs [] [] 0 (zipInit (α := α) (β := β) (ε := ε)) := by
  refine ⟨rfl, rfl, rfl, rfl, rfl⟩

/-- Claim C1, counterexample. Upstream side A completes while its FIFO buffer
`qa` is empty (it never emitted) and side B is still live; the claim then
requires the downstream observer to receive `complete`, but `ZipObserver`
delivers nothing: the first completion only records `completed_one = true`
(zip.rs lines 143-150). -/
theorem zip_complete_one_side_counterexample :
    completesOf (zipRun ([ZEv.complete] : List (ZEv Nat Nat Unit)) zipInit).out = 0 ∧
    (zipRun ([ZEv.complete] : List (ZEv Nat Nat Unit)) zipInit).qa = [] ∧
    (zipRun ([ZEv.complete] : List (ZEv Nat Nat Unit)) zipInit).completedOne = true :=
  ⟨rfl, rfl, rfl⟩

/-- Claim C1, amended. For `zip(a, b)`: items are paired by index using the two
FIFO buffers (on each side's `next`, if the other side's buffer is non-empty it
is popped and the pair emitted, otherwise the value is pushed) — the pairs
delivered downstream are exactly the index-wise `zip` of the two value
sequences; and the downstream observer receives `complete` when BOTH sides
have completed (at the second completion notification, regardless of buffer
contents), the first completion only being recorded in `completed_one`. -/
theorem zip_amended {α β ε : Type} (as : List α) (bs : List β) (ca cb : Bool)
    (tr : List (ZEv α β ε))
    (hin : Interleave (zipStreamA as ca) (zipStreamB bs cb) tr) :
    nextsOf (zipRun tr zipInit).out = as.zip bs ∧
    completesOf (zipRun tr zipInit).out = (if ca && cb then 1 else 0) := by
  have habs := zipRun_abs tr [] [] 0 zipInit zipInit_abs
  simp only [List.nil_append, Nat.zero_add] at habs
  have hrA : seenA (zipStreamB (α := α) (ε := ε) bs cb) = [] := by
    simp [zipStreamB, seenA_append, seenA_map_nextB]
    cases cb <;> simp [seenA]
  have hlB : seenB (zipStreamA (β := β) (ε := ε) as ca) = [] := by
    simp [zipStreamA, seenB_append, seenB_map_nextA]
    cases ca <;> simp [seenB]
  have hsa : seenA tr = as := by
    rw [interleave_seenA hin hrA]
    simp [zipStreamA, seenA_append, seenA_map_nextA]
    cases ca <;> simp [seenA]
  have hsb : seenB tr = bs := by
    rw [interleave_seenB hin hlB]
    simp [zipStreamB, seenB_append, seenB_map_nextB]
    cases cb <;> simp [seenB]
  have hzc : zCompletes tr = (if ca then 1 else 0) + (if cb then 1 else 0) := by
    rw [interleave_zCompletes hin]
    simp [zipStreamA, zipStreamB, zCompletes_append, zCompletes_map_nextA, zCompletes_map_nextB]
    cases ca <;> cases cb <;> simp [zCompletes]
  obtain ⟨-, -, -, hnp, hcp⟩ := habs
  rw [hsa, hsb] at hnp
  rw [hzc] at hcp
  refine ⟨hnp, ?_⟩
  rw [hcp]
  cases ca <;> cases cb <;> simp

/-- Witness for `zip_amended` at a concrete interleaving: side A emits `1, 2`
then completes, side B emits `10` then completes. -/
theorem zip_amended_witness :
    nextsOf (zipRun ((zipStreamA [1, 2] true ++ zipStreamB [10] true) : List (ZEv Nat Nat Unit))
        zipInit).out = [1, 2].zip [10] ∧
    completesOf (zipRun ((zipStreamA [1, 2] true ++ zipStreamB [10] true) : List (ZEv Nat Nat Unit))
        zipInit).out = (if true && true then 1 else 0) :=
  zip_amended [1, 2] [10] true true _ (interleave_append _ _)

/-! Section `finalize(f)` — src/rxrust/src/ops/finalize.rs

The operator stores the callback in a shared cell (`Rc<RefCell<Option<F>>>` /
`Arc<Mutex<Option<F>>>`) referenced both by a `FinalizerSubscription` added to
the chain's subscription and by the `FinalizerObserver` wrapping the
downstream observer.  `FinalizerObserver::complete`, `FinalizerObserver::error`
and `FinalizerSubscription::unsubscribe` each run
`if let Some(func) = cell.take() { func() }` on that one cell. -/

/-- A termination event that can reach a `finalize(f)` chain. -/
inductive FinEv where
  | complete
  | error
  | unsub
  deriving DecidableEq

/-- The shared callback cell: whether the `Option` still holds the callback,
and how many times the callback has been invoked. -/
structure FinState where
  present : Bool
  calls : Nat
  deriving DecidableEq

/-- All three termination paths perform the same take-and-invoke on the shared
cell (finalize.rs lines 108-124 and 176-207): if the callback is still there,
remove it and run it, otherwise do nothing. -/
def finStep (s : FinState) : FinEv → FinState
  | _ => if s.present then { present := false, calls := s.calls + 1 } else s

/-- A run of the finalize cell over a sequence of termination events. -/
def finRun (evs : List FinEv) (s : FinState) : FinState := runFold finStep evs s

/-- The cell as set up by `FinalizeOp::actual_subscribe`: callback present,
never invoked. -/
def finInit : FinState := { present := true, calls := 0 }

theorem finRun_absent (evs : List FinEv) (s : FinState) (h : s.present = false) :
    finRun evs s = s := by
  induction evs with
  | nil => rfl
  | cons e r ih => simp [finRun, finStep, h] at ih ⊢; exact ih

/-- Claim C2. For every chain containing `finalize(f)`, across any sequence of
termination events from {complete, error, unsubscribe} the callback `f` runs
exactly once as soon as the sequence is non-empty — and never a second time,
even if several termination events happen in sequence (e.g. error, then
complete, then unsubscribe): all three paths take from the same shared cell. -/
theorem finalize_once (evs : List FinEv) :
    (finRun evs finInit).calls = if evs.isEmpty then 0 else 1 := by
  cases evs with
  | nil => rfl
  | cons e r =>
    have h₁ : finStep finInit e = { present := false, calls := 1 } := rfl
    simp only [finRun, runFold_cons, h₁, List.isEmpty_cons, if_false]
    have h₂ := finRun_absent r { present := false, calls := 1 } rfl
    simp [finRun] at h₂
    rw [h₂]
    simp

/-! Section `skip(n)` — src/rxrust/src/ops/skip.rs

`SkipObserver` counts upstream items in `hits`; once `hits > count` it
forwards items; it contains a dead self-complete branch guarded by
`hits == count` inside `hits > count`. -/

/-- State of `SkipObserver`: the skip count, the `hits` counter, the
subscription, and the notifications delivered downstream. -/
structure SkipState (α ε : Type) where
  count : Nat
  hits : Nat
  closed : Bool
  out : List (Ev α ε)
  deriving DecidableEq

/-- Method `SkipObserver::next` (skip.rs lines 64-73) with its inner
order-of-conditions quirk kept exactly as written, plus the proxied
`error`/`complete`. -/
def skipStep {α ε : Type} (s : SkipState α ε) : Ev α ε → SkipState α ε
  | Ev.next v =>
    let s₁ := { s with hits := s.hits + 1 }
    if s₁.hits > s₁.count then
      let s₂ := { s₁ with out := s₁.out ++ [Ev.next v] }
      if s₁.hits = s₁.count then
        { s₂ with out := s₂.out ++ [Ev.complete], closed := true }
      else s₂
    else s₁
  | Ev.err e => { s with out := s.out ++ [Ev.err e] }
  | Ev.complete => { s with out := s.out ++ [Ev.complete] }

/-- A run of `SkipObserver` over a list of upstream notifications. -/
def skipRun {α ε : Type} (tr : List (Ev α ε)) (s : SkipState α ε) : SkipState α ε :=
  runFold skipStep tr s

/-- The observer installed by `SkipOp::actual_subscribe`: `hits: 0`. -/
def skipInit {α ε : Type} (n : Nat) : SkipState α ε :=
  { count := n, hits := 0, closed := false, out := [] }

theorem skipRun_nexts {α ε : Type} (vs : List α) :
    ∀ (c h : Nat) (cl : Bool) (o : List (Ev α ε)),
    skipRun (vs.map Ev.next) { count := c, hits := h, closed := cl, out := o }
      = { count := c, hits := h + vs.length, closed := cl,
          out := o ++ (vs.drop (c - h)).map Ev.next } := by
  induction vs with
  | nil => intro c h cl o; simp [skipRun]
  | cons v vs ih =>
    intro c h cl o
    simp only [List.map_cons, skipRun, runFold_cons]
    by_cases hgt : h + 1 > c
    · have hne : ¬(h + 1 = c) := by omega
      have hstep : skipStep { count := c, hits := h, closed := cl, out := o } (Ev.next v)
          = { count := c, hits := h + 1, closed := cl, out := o ++ [Ev.next v] } := by
        simp [skipStep, hgt, hne]
      rw [hstep]
      have := ih c (h + 1) cl (o ++ [Ev.next v])
      simp only [skipRun] at this
      rw [this]
      have hd₁ : c - h = 0 := by omega
      have hd₂ : c - (h + 1) = 0 := by omega
      simp [hd₁, hd₂]
      omega
    · have hstep : skipStep { count := c, hits := h, closed := cl, out := o } (Ev.next v)
          = { count := c, hits := h + 1, closed := cl, out := o } := by
        simp [skipStep, hgt]
      rw [hstep]
      have := ih c (h + 1) cl o
      simp only [skipRun] at this
      rw [this]
      have hd : c - h = (c - (h + 1)) + 1 := by omega
      simp [hd]
      omega

/-- Claim C5. `skip(n)` forwards exactly the items after the first `n`, in
upstream order, forwards upstream `complete` and `error` unchanged, and never
emits a `complete` of its own on a `next` (nor unsubscribes there): the
self-complete branch requires `hits == count` inside `hits > count` and is
therefore unreachable, for every observer state. -/
theorem skip_spec {α ε : Type} (n : Nat) (vs : List α) :
    (∀ (s : SkipState α ε) (v : α),
      completesOf (skipStep s (Ev.next v)).out = completesOf s.out ∧
      (skipStep s (Ev.next v)).closed = s.closed) ∧
    (skipRun (vs.map Ev.next ++ [Ev.complete]) (skipInit n : SkipState α ε)).out
      = (vs.drop n).map Ev.next ++ [Ev.complete] ∧
    (∀ e : ε, (skipRun (vs.map Ev.next ++ [Ev.err e]) (skipInit n : SkipState α ε)).out
      = (vs.drop n).map Ev.next ++ [Ev.err e]) := by
  refine ⟨?_, ?_, ?_⟩
  · intro s v
    simp only [skipStep]
    by_cases hgt : s.hits + 1 > s.count
    · have hne : ¬(s.hits + 1 = s.count) := by omega
      simp [hgt, hne, completesOf]
    · simp [hgt]
  · simp only [skipRun, runFold_append]
    have := skipRun_nexts (ε := ε) vs n 0 false []
    simp only [skipRun] at this
    simp only [skipInit, this]
    simp [skipStep, Nat.sub_zero]
  · intro e
    simp only [skipRun, runFold_append]
    have := skipRun_nexts (ε := ε) vs n 0 false []
    simp only [skipRun] at this
    simp only [skipInit, this]
    simp [skipStep, Nat.sub_zero]

/-! Section `take_last(n)` — src/rxrust/src/ops/take_last.rs

`TakeLastObserver` buffers items in a `VecDeque`, trimming it from the front
to at most `count` entries; on upstream `complete` it drains the queue
downstream and completes; on `error` it only forwards the error. -/

/-- State of `TakeLastObserver`: the retention count, the queue, and the
notifications delivered downstream. -/
structure TLState (α ε : Type) where
  count : Nat
  queue : List α
  out : List (Ev α ε)
  deriving DecidableEq

/-- The `while self.queue.len() > self.count { self.queue.pop_front(); }` loop
of `TakeLastObserver::next`. -/
def tlShrink {α : Type} (n : Nat) : List α → List α
  | [] => []
  | v :: rest => if rest.length + 1 > n then tlShrink n rest else v :: rest

/-- Methods `TakeLastObserver::next/error/complete` (take_last.rs lines 42-57). -/
def tlStep {α ε : Type} (s : TLState α ε) : Ev α ε → TLState α ε
  | Ev.next v => { s with queue := tlShrink s.count (s.queue ++ [v]) }
  | Ev.err e => { s with out := s.out ++ [Ev.err e] }
  | Ev.complete =>
    { s with queue := [], out := s.out ++ s.queue.map Ev.next ++ [Ev.complete] }

/-- A run of `TakeLastObserver` over a list of upstream notifications. -/
def tlRun {α ε : Type} (tr : List (Ev α ε)) (s : TLState α ε) : TLState α ε :=
  runFold tlStep tr s

/-- The observer installed by `TakeLastOp::actual_subscribe`: empty queue. -/
def tlInit {α ε : Type} (n : Nat) : TLState α ε :=
  { count := n, queue := [], out := [] }

/-- The last `min n l.length` elements of `l`, in order. -/
def lastN {α : Type} (n : Nat) (l : List α) : List α := l.drop (l.length - n)

theorem lastN_of_ge {α : Type} (n : Nat) (l : List α) (h : l.length ≤ n) :
    lastN n l = l := by
  simp [lastN, Nat.sub_eq_zero_of_le h]

theorem lastN_cons_of_le {α : Type} (n : Nat) (v : α) (l : List α) (h : n ≤ l.length) :
    lastN n (v :: l) = lastN n l := by
  simp only [lastN, List.length_cons]
  have heq : l.length + 1 - n = (l.length - n) + 1 := by omega
  rw [heq, List.drop_succ_cons]

theorem lastN_length {α : Type} (n : Nat) (l : List α) :
    (lastN n l).length = min n l.length := by
  simp [lastN]
  omega

theorem tlShrink_eq_lastN {α : Type} (n : Nat) (l : List α) : tlShrink n l = lastN n l := by
  induction l with
  | nil => simp [tlShrink, lastN]
  | cons v rest ih =>
    simp only [tlShrink]
    by_cases h : rest.length + 1 > n
    · rw [if_pos h, ih, lastN_cons_of_le n v rest (by omega)]
    · rw [if_neg h, lastN_of_ge n (v :: rest) (by simp; omega)]

theorem lastN_lastN_append {α : Type} (n : Nat) (l m : List α) :
    lastN n (lastN n l ++ m) = lastN n (l ++ m) := by
  induction l with
  | nil => simp [lastN]
  | cons v l ih =>
    by_cases h : n ≤ l.length
    · rw [lastN_cons_of_le n v l h, ih, List.cons_append,
        lastN_cons_of_le n v (l ++ m) (by simp; omega)]
    · rw [lastN_of_ge n (v :: l) (by simp; omega)]

theorem tlRun_nexts {α ε : Type} (vs : List α) :
    ∀ (n : Nat) (q : List α) (o : List (Ev α ε)), q.length ≤ n →
    tlRun (vs.map Ev.next) { count := n, queue := q, out := o }
      = { count := n, queue := lastN n (q ++ vs), out := o } := by
  induction vs with
  | nil =>
    intro n q o hq
    simp [tlRun, lastN_of_ge n q hq]
  | cons v vs ih =>
    intro n q o hq
    simp only [List.map_cons, tlRun, runFold_cons]
    have hstep : tlStep { count := n, queue := q, out := o } (Ev.next v)
        = { count := n, queue := lastN n (q ++ [v]), out := o } := by
      simp [tlStep, tlShrink_eq_lastN]
    rw [hstep]
    have hlen : (lastN n (q ++ [v])).length ≤ n := by
      rw [lastN_length]
      omega
    have := ih n (lastN n (q ++ [v])) o hlen
    simp only [tlRun] at this
    rw [this, lastN_lastN_append, List.append_assoc]
    rfl

/-- Claim C8. `take_last(n)` emits nothing while the upstream is active; after
any sequence of `next`s its queue holds exactly the last `min n L` upstream
items (older items evicted from the front), so in particular at most `n`; on
upstream `complete` it emits exactly those last `min n L` items in arrival
order followed by `complete`; and an upstream `error` is forwarded without
emitting any buffered item. -/
theorem take_last_spec {α ε : Type} (n : Nat) (vs : List α) :
    (tlRun (vs.map Ev.next) (tlInit n : TLState α ε)).queue = lastN n vs ∧
    (tlRun (vs.map Ev.next) (tlInit n : TLState α ε)).out = [] ∧
    (lastN n vs).length = min n vs.length ∧
    (tlRun (vs.map Ev.next ++ [Ev.complete]) (tlInit n : TLState α ε)).out
      = (lastN n vs).map Ev.next ++ [Ev.complete] ∧
    (∀ e : ε, (tlRun (vs.map Ev.next ++ [Ev.err e]) (tlInit n : TLState α ε)).out
      = [Ev.err e]) := by
  have hrun := tlRun_nexts (ε := ε) vs n [] [] (by simp)
  simp only [List.nil_append] at hrun
  refine ⟨?_, ?_, lastN_length n vs, ?_, ?_⟩
  · simp only [tlInit, hrun]
  · simp only [tlInit, hrun]
  · simp only [tlRun, runFold_append, tlInit]
    have := hrun
    simp only [tlRun] at this
    rw [this]
    simp [tlStep]
  · intro e
    simp only [tlRun, runFold_append, tlInit]
    have := hrun
    simp only [tlRun] at this
    rw [this]
    simp [tlStep]

/-! Section `debounce(dur, sched)` — src/rxrust/src/ops/debounce.rs

`LocalDebounceObserver` stores each upstream value as a trailing value with a
timestamp and schedules a task that emits it only if no newer value arrived;
`complete` flushes a pending trailing value before completing, `error` only
forwards the error. -/

/-- Notifications driving the debounce observer: an upstream `next` at
(logical) time `t`, the firing of a scheduled task that captured the
`last_updated` stamp at schedule time, an upstream error, or completion. -/
inductive DbEv (α ε : Type) where
  | up (v : α) (t : Nat)
  | fire (stamp : Option Nat)
  | upErr (e : ε)
  | upComplete
  deriving DecidableEq

/-- State of `DebounceObserver`: the pending trailing value, the
`last_updated` stamp, the stamps captured by the scheduled tasks, and the
notifications delivered downstream. -/
structure DbState (α ε : Type) where
  trailing : Option α
  lastUpdated : Option Nat
  tasks : List (Option Nat)
  out : List (Ev α ε)
  deriving DecidableEq

/-- Methods `LocalDebounceObserver::next/error/complete` and the body of the
scheduled task (debounce.rs lines 73-104): `next` records the value and
stamp and schedules a task capturing the stamp; a firing task emits the
trailing value only if its captured stamp still equals `last_updated`;
`complete` flushes the pending trailing value then completes; `error` only
forwards. -/
def dbStep {α ε : Type} (s : DbState α ε) : DbEv α ε → DbState α ε
  | DbEv.up v t =>
    { s with lastUpdated := some t, trailing := some v, tasks := s.tasks ++ [some t] }
  | DbEv.fire stamp =>
    match s.trailing with
    | some v =>
      if s.lastUpdated = stamp then { s with out := s.out ++ [Ev.next v], trailing := none }
      else s
    | none => s
  | DbEv.upErr e => { s with out := s.out ++ [Ev.err e] }
  | DbEv.upComplete =>
    match s.trailing with
    | some v => { s with trailing := none, out := s.out ++ [Ev.next v, Ev.complete] }
    | none => { s with out := s.out ++ [Ev.complete] }

/-- A run of the debounce observer over a list of events. -/
def dbRun {α ε : Type} (tr : List (DbEv α ε)) (s : DbState α ε) : DbState α ε :=
  runFold dbStep tr s

/-- The debounce observer as installed on subscribe: no trailing value, no
stamp, no tasks. -/
def dbInit {α ε : Type} : DbState α ε :=
  { trailing := none, lastUpdated := none, tasks := [], out := [] }

/-- Claim C9. For `debounce(dur, sched)`: an upstream `next` leaves its value
pending (`trailing`), and when the upstream completes while a trailing value
is still pending the pending value is emitted first with `complete`
immediately after, whereas on upstream error the pending value is discarded —
only the error is forwarded and no additional `next` is emitted. -/
theorem debounce_spec {α ε : Type} (tr : List (DbEv α ε)) :
    (∀ (v : α) (t : Nat), (dbRun (tr ++ [DbEv.up v t]) dbInit).trailing = some v) ∧
    (dbRun (tr ++ [DbEv.upComplete]) dbInit).out
      = ((dbRun tr dbInit).out ++
          match (dbRun tr dbInit).trailing with
          | some v => [Ev.next v, Ev.complete]
          | none => [Ev.complete]) ∧
    (∀ e : ε, (dbRun (tr ++ [DbEv.upErr e]) dbInit).out = (dbRun tr dbInit).out ++ [Ev.err e] ∧
      nextsOf (dbRun (tr ++ [DbEv.upErr e]) dbInit).out = nextsOf (dbRun tr dbInit).out) := by
  refine ⟨?_, ?_, ?_⟩
  · intro v t
    simp [dbRun, runFold_append, dbStep]
  · simp only [dbRun, runFold_append, runFold_cons, runFold_nil]
    rcases h : (runFold dbStep tr dbInit).trailing with _ | v
    · simp [dbStep, h]
    · simp [dbStep, h]
  · intro e
    constructor
    · simp [dbRun, runFold_append, dbStep]
    · simp [dbRun, runFold_append, dbStep, nextsOf]

/-! Section `SpawnHandle` — src/rxrust/src/scheduler.rs

`SpawnHandle` wraps an `AbortHandle` plus an `is_closed` flag behind an
`RwLock`; `unsubscribe` aborts the task only on the transition from open to
closed. -/

/-- Observable state of a `SpawnHandle`: the `is_closed` flag and the number
of times `AbortHandle::abort` has been invoked. -/
structure HandleState where
  closed : Bool
  aborts : Nat
  deriving DecidableEq

/-- Method `SpawnHandle::unsubscribe` (scheduler.rs lines 64-71): if not yet closed,
set the flag and abort the underlying task; otherwise do nothing. -/
def hUnsubscribe (s : HandleState) : HandleState :=
  if s.closed then s else { closed := true, aborts := s.aborts + 1 }

/-- Method `SpawnHandle::is_closed`. -/
def hIsClosed (s : HandleState) : Bool := s.closed

/-- Constructor `SpawnHandle::new`: open, task not aborted. -/
def hInit : HandleState := { closed := false, aborts := 0 }

/-- Claim C10. `SpawnHandle::unsubscribe` is idempotent on every state (calling
it twice is observationally equivalent to calling it once); from a fresh
handle, after the first `unsubscribe` the handle reports closed, and any
number of further `unsubscribe` calls leave it closed forever with the
underlying abort invoked exactly once. -/
theorem spawn_handle_spec :
    (∀ s : HandleState, hUnsubscribe (hUnsubscribe s) = hUnsubscribe s) ∧
    hIsClosed (hUnsubscribe hInit) = true ∧
    (∀ k : Nat, Nat.iterate hUnsubscribe k (hUnsubscribe hInit)
      = { closed := true, aborts := 1 }) := by
  have hidem : ∀ s : HandleState, hUnsubscribe (hUnsubscribe s) = hUnsubscribe s := by
    intro s
    by_cases h : s.closed
    · simp [hUnsubscribe, h]
    · simp [hUnsubscribe, h]
  refine ⟨hidem, rfl, ?_⟩
  intro k
  induction k with
  | zero => rfl
  | succ k ih =>
    rw [Function.iterate_succ_apply, hidem hInit, ih]

/-! Section `from_iter(iter)` / `repeat(v, n)` — src/rxrust/src/observable/from_iter.rs

`IterEmitter::emit` iterates the source, testing `subscriber.is_finished()`
before each emission and breaking as soon as it is finished, then emits
`complete` only if the subscriber is still not finished. -/

/-- An abstract downstream subscriber for a source: how its state reacts to a
delivered item, and the `is_finished` test the emitter reads between
emissions. -/
structure IterSub (α σ : Type) where
  onNext : σ → α → σ
  finished : σ → Bool

/-- The `for v in iter { if !finished { next(v) } else { break } }` loop of
`IterEmitter::emit`, returning the subscriber state at loop exit and the
items actually delivered. -/
def emitLoop {α σ : Type} (d : IterSub α σ) : List α → σ → σ × List α
  | [], s => (s, [])
  | v :: vs, s =>
    if d.finished s then (s, [])
    else
      let r := emitLoop d vs (d.onNext s v)
      (r.1, v :: r.2)

/-- Method `IterEmitter::emit` (from_iter.rs lines 44-58): run the loop, then emit
`complete` iff the subscriber is still not finished. -/
def emitIter {α σ : Type} (d : IterSub α σ) (l : List α) (s : σ) : σ × List (Ev α Unit) :=
  let r := emitLoop d l s
  if d.finished r.1 then (r.1, r.2.map Ev.next)
  else (r.1, r.2.map Ev.next ++ [Ev.complete])

/-- Source `repeat(v, n)` is `from_iter(iter::repeat(v).take(n))`
(from_iter.rs lines 106-114). -/
def repeatEmit {α σ : Type} (d : IterSub α σ) (v : α) (n : Nat) (s : σ) :
    σ × List (Ev α Unit) :=
  emitIter d (List.replicate n v) s

theorem completesOf_map_next {α ε : Type} (vs : List α) :
    completesOf (vs.map (Ev.next (ε := ε))) = 0 := by
  induction vs with
  | nil => rfl
  | cons v r ih => simp [completesOf, ih]

theorem emitLoop_all {α σ : Type} (d : IterSub α σ) (hnf : ∀ st, d.finished st = false)
    (l : List α) : ∀ s : σ, (emitLoop d l s).2 = l := by
  induction l with
  | nil => intro s; rfl
  | cons v vs ih =>
    intro s
    simp [emitLoop, hnf s, ih (d.onNext s v)]

theorem emitLoop_take {α σ : Type} (d : IterSub α σ) (l : List α) :
    ∀ s : σ, (emitLoop d l s).2 = l.take (emitLoop d l s).2.length := by
  induction l with
  | nil => intro s; rfl
  | cons v vs ih =>
    intro s
    by_cases h : d.finished s
    · simp [emitLoop, h]
    · simp only [emitLoop, h, if_neg, Bool.false_eq_true, not_false_eq_true]
      simp only [List.length_cons, List.take_succ_cons, List.cons.injEq, true_and]
      exact ih (d.onNext s v)

/-- Claim C7. `from_iter(iter)` emits each element of the iterator in order and
completes exactly once after the last element, provided the subscriber never
reports finished; the emitter stops immediately when the subscriber is
finished (testing before each emission), the delivered items are always a
prefix of the iterator, and `complete` is emitted exactly once — and only if
the subscriber is not finished after the loop.  Consequently `repeat(v, n)`
emits `v` exactly `n` times then completes, and `repeat(v, 0)` emits nothing
and only completes. -/
theorem from_iter_spec {α σ : Type} (d : IterSub α σ) (l : List α) (s : σ) (v₀ : α)
    (n : Nat) (hnf : ∀ st, d.finished st = false) :
    (emitIter d l s).2 = l.map Ev.next ++ [Ev.complete] ∧
    (repeatEmit d v₀ n s).2 = List.replicate n (Ev.next v₀) ++ [Ev.complete] ∧
    (repeatEmit d v₀ 0 s).2 = [Ev.complete] ∧
    (∀ (d₂ : IterSub α σ) (st : σ) (v : α) (vs : List α), d₂.finished st = true →
      emitLoop d₂ (v :: vs) st = (st, [])) ∧
    (∀ (d₂ : IterSub α σ) (l₂ : List α) (st : σ),
      (emitLoop d₂ l₂ st).2 = l₂.take (emitLoop d₂ l₂ st).2.length ∧
      completesOf (emitIter d₂ l₂ st).2
        = (if d₂.finished (emitLoop d₂ l₂ st).1 then 0 else 1)) := by
  have hall : (emitIter d l s).2 = l.map Ev.next ++ [Ev.complete] := by
    simp [emitIter, hnf, emitLoop_all d hnf l s]
  refine ⟨hall, ?_, ?_, ?_, ?_⟩
  · simp [repeatEmit, emitIter, hnf, emitLoop_all d hnf (List.replicate n v₀) s,
      List.map_replicate]
  · simp [repeatEmit, emitIter, hnf, emitLoop_all d hnf (List.replicate 0 v₀) s, emitLoop]
  · intro d₂ st v vs h
    simp [emitLoop, h]
  · intro d₂ l₂ st
    refine ⟨emitLoop_take d₂ l₂ st, ?_⟩
    by_cases h : d₂.finished (emitLoop d₂ l₂ st).1
    · simp [emitIter, h, completesOf_map_next]
    · simp [emitIter, h, completesOf_map_next]

/-- Witness for `from_iter_spec`: a counting subscriber that never finishes,
the iterator `[5, 6]`, and `repeat(7, 2)`. -/
theorem from_iter_spec_witness :
    (emitIter { onNext := fun s _ => s + 1, finished := fun _ => false } [5, 6] 0).2
      = List.map Ev.next [5, 6] ++ [Ev.complete] ∧
    (repeatEmit { onNext := fun s _ => s + 1, finished := fun _ => false } 7 2 0).2
      = List.replicate 2 (Ev.next 7) ++ [Ev.complete] ∧
    (repeatEmit { onNext := fun s _ => s + 1, finished := fun _ => false } 7 0 0).2
      = [Ev.complete] ∧
    (∀ (d₂ : IterSub Nat Nat) (st : Nat) (v : Nat) (vs : List Nat), d₂.finished st = true →
      emitLoop d₂ (v :: vs) st = (st, [])) ∧
    (∀ (d₂ : IterSub Nat Nat) (l₂ : List Nat) (st : Nat),
      (emitLoop d₂ l₂ st).2 = l₂.take (emitLoop d₂ l₂ st).2.length ∧
      completesOf (emitIter d₂ l₂ st).2
        = (if d₂.finished (emitLoop d₂ l₂ st).1 then 0 else 1)) :=
  from_iter_spec { onNext := fun s _ => s + 1, finished := fun _ => false } [5, 6] 0 7 2
    (fun _ => rfl)

/-! Section `merge(a, b)` — src/rxrust/src/ops/merge.rs

Both sources share one `MergeObserver` (behind `Rc<RefCell>` / `Arc<Mutex>`),
which forwards items, forwards the first error and unsubscribes the shared
subscription, and forwards `complete` only on the second completion. -/

/-- A notification reaching the shared `MergeObserver` from either source. -/
inductive MEv (α ε : Type) where
  | next (v : α)
  | err (e : ε)
  | complete
  deriving DecidableEq

/-- State of `MergeObserver`: the `completed_one` flag, the shared
subscription, and the notifications delivered downstream. -/
structure MergeState (α ε : Type) where
  completedOne : Bool
  closed : Bool
  out : List (Ev α ε)
  deriving DecidableEq

/-- Methods `MergeObserver::next/error/complete` (merge.rs lines 91-116). -/
def mergeStep {α ε : Type} (s : MergeState α ε) : MEv α ε → MergeState α ε
  | MEv.next v => { s with out := s.out ++ [Ev.next v] }
  | MEv.err e => { s with out := s.out ++ [Ev.err e], closed := true }
  | MEv.complete =>
    if s.completedOne then { s with out := s.out ++ [Ev.complete] }
    else { s with completedOne := true }

/-- Modelled from the spec: delivery of source notifications to the shared
observer stops once the shared subscription is closed (§5 Cancellation —
unsubscribing "causes subsequent `next/error/complete` arriving from
still-in-flight producers to be dropped"); the subject/subscription delivery
code itself is not under src/. -/
def mergeDeliver {α ε : Type} (s : MergeState α ε) (e : MEv α ε) : MergeState α ε :=
  if s.closed then s else mergeStep s e

/-- A run of the merge chain over an interleaved trace from both sources. -/
def mergeRun {α ε : Type} (tr : List (MEv α ε)) (s : MergeState α ε) : MergeState α ε :=
  runFold mergeDeliver tr s

/-- The shared observer as built by `MergeOp::actual_subscribe`. -/
def mergeInit {α ε : Type} : MergeState α ε :=
  { completedOne := false, closed := false, out := [] }

/-- The values of a merge trace, in order. -/
def mNexts {α ε : Type} : List (MEv α ε) → List α
  | [] => []
  | MEv.next v :: r => v :: mNexts r
  | MEv.err _ :: r => mNexts r
  | MEv.complete :: r => mNexts r

/-- The number of completion notifications in a merge trace. -/
def mCompletes {α ε : Type} : List (MEv α ε) → Nat
  | [] => 0
  | MEv.complete :: r => mCompletes r + 1
  | MEv.next _ :: r => mCompletes r
  | MEv.err _ :: r => mCompletes r

/-- Whether a merge trace contains no error notification. -/
def mErrFree {α ε : Type} : List (MEv α ε) → Bool
  | [] => true
  | MEv.err _ :: _ => false
  | MEv.next _ :: r => mErrFree r
  | MEv.complete :: r => mErrFree r

/-- The event stream a well-behaved, non-erroring source delivers: its values
in order, then `complete` iff it completed. -/
def mergeStream {α ε : Type} (vs : List α) (c : Bool) : List (MEv α ε) :=
  vs.map MEv.next ++ if c then [MEv.complete] else []

theorem mNexts_cons {α ε : Type} (e : MEv α ε) (tr : List (MEv α ε)) :
    mNexts (e :: tr) = mNexts [e] ++ mNexts tr := by
  cases e <;> simp [mNexts]

theorem mCompletes_cons {α ε : Type} (e : MEv α ε) (tr : List (MEv α ε)) :
    mCompletes (e :: tr) = mCompletes [e] + mCompletes tr := by
  cases e <;> simp [mCompletes] <;> omega

/-- Abstraction relation for an error-free merge run: relative to the values
`vs` and completion count `c` processed so far. -/
def MergeAbs {α ε : Type} (vs : List α) (c : Nat) (s : MergeState α ε) : Prop :=
  s.closed = false ∧ s.completedOne = decide (0 < c) ∧
  nextsOf s.out = vs ∧ completesOf s.out = c - 1 ∧ errsOf s.out = []

theorem mergeStep_abs {α ε : Type} {vs : List α} {c : Nat} {s : MergeState α ε}
    (habs : MergeAbs vs c s) (e : MEv α ε) (he : mErrFree [e] = true) :
    MergeAbs (vs ++ mNexts [e]) (c + mCompletes [e]) (mergeDeliver s e) := by
  obtain ⟨hcl, hone, hnp, hcp, hep⟩ := habs
  have hdel : mergeDeliver s e = mergeStep s e := by simp [mergeDeliver, hcl]
  rw [hdel]
  cases e with
  | next v =>
    refine ⟨hcl, by simpa [mergeStep, mNexts, mCompletes] using hone, ?_, ?_, ?_⟩
    · simp [mergeStep, mNexts, nextsOf_append, hnp, nextsOf]
    · simp [mergeStep, mCompletes, completesOf_append, hcp, completesOf]
    · simp [mergeStep, errsOf_append, hep, errsOf]
  | err e => simp [mErrFree] at he
  | complete =>
    by_cases hflag : s.completedOne = true
    · have hcpos : 0 < c := by
        rw [hflag] at hone
        exact of_decide_eq_true hone.symm
      have hstep : mergeStep s MEv.complete = { s with out := s.out ++ [Ev.complete] } := by
        simp [mergeStep, hflag]
      rw [hstep]
      refine ⟨hcl, ?_, ?_, ?_, ?_⟩
      · show s.completedOne = decide (0 < c + mCompletes [MEv.complete])
        rw [hflag]
        simp [mCompletes]
      · simp [mNexts, nextsOf_append, hnp, nextsOf]
      · simp [mCompletes, completesOf_append, hcp, completesOf]
        omega
      · simp [errsOf_append, hep, errsOf]
    · have hflag₂ : s.completedOne = false := eq_false_of_ne_true hflag
      have hczero : c = 0 := by
        rw [hflag₂] at hone
        have := of_decide_eq_false hone.symm
        omega
      have hstep : mergeStep s MEv.complete = { s with completedOne := true } := by
        simp [mergeStep, hflag₂]
      rw [hstep]
      refine ⟨hcl, by simp [mCompletes], by simpa [mNexts] using hnp, ?_,
        by simpa [errsOf] using hep⟩
      show completesOf s.out = c + mCompletes [MEv.complete] - 1
      rw [hczero] at hcp ⊢
      simpa [mCompletes] using hcp

theorem mergeRun_abs {α ε : Type} (tr : List (MEv α ε)) :
    ∀ (vs : List α) (c : Nat) (s : MergeState α ε), MergeAbs vs c s →
    mErrFree tr = true →
    MergeAbs (vs ++ mNexts tr) (c + mCompletes tr) (mergeRun tr s) := by
  induction tr with
  | nil =>
    intro vs c s h _
    simpa [mergeRun, mNexts, mCompletes] using h
  | cons e r ih =>
    intro vs c s h hef
    have hefe : mErrFree [e] = true := by
      cases e <;> simp [mErrFree] at hef ⊢
    have hefr : mErrFree r = true := by
      cases e <;> simp [mErrFree] at hef ⊢ <;> exact hef
    have h₁ := mergeStep_abs h e hefe
    have h₂ := ih (vs ++ mNexts [e]) (c + mCompletes [e]) (mergeDeliver s e) h₁ hefr
    rw [mNexts_cons, mCompletes_cons]
    simpa [mergeRun, List.append_assoc, Nat.add_assoc] using h₂

theorem mergeRun_closed {α ε : Type} (tr : List (MEv α ε)) (s : MergeState α ε)
    (h : s.closed = true) : mergeRun tr s = s := by
  induction tr with
  | nil => rfl
  | cons e r ih => simp [mergeRun, mergeDeliver, h] at ih ⊢; exact ih

theorem interleave_mCompletes {α ε : Type} {l r t : List (MEv α ε)}
    (h : Interleave l r t) : mCompletes t = mCompletes l + mCompletes r := by
  induction h with
  | nil => rfl
  | left h ih =>
    rename_i x _ _ _
    cases x <;> simp [mCompletes, ih] <;> omega
  | right h ih =>
    rename_i x _ _ _
    cases x <;> simp [mCompletes_cons, mCompletes, ih] <;> omega

theorem interleave_mErrFree {α ε : Type} {l r t : List (MEv α ε)}
    (h : Interleave l r t) (hl : mErrFree l = true) (hr : mErrFree r = true) :
    mErrFree t = true := by
  induction h with
  | nil => rfl
  | left h ih =>
    rename_i x _ _ _
    cases x <;> simp [mErrFree] at hl ⊢ <;> exact ih hl hr
  | right h ih =>
    rename_i x _ _ _
    cases x <;> simp [mErrFree] at hr ⊢ <;> exact ih hl hr

theorem mergeStream_mErrFree {α ε : Type} (vs : List α) (c : Bool) :
    mErrFree (mergeStream (ε := ε) vs c) = true := by
  induction vs with
  | nil => cases c <;> simp [mergeStream, mErrFree]
  | cons v r ih => simpa [mergeStream, mErrFree] using ih

theorem mergeStream_mCompletes {α ε : Type} (vs : List α) (c : Bool) :
    mCompletes (mergeStream (ε := ε) vs c) = if c then 1 else 0 := by
  induction vs with
  | nil => cases c <;> simp [mergeStream, mCompletes]
  | cons v r ih => simpa [mergeStream, mCompletes] using ih

theorem mergeInit_abs {α ε : Type} : MergeAbs ([] : List α) 0 (mergeInit (ε := ε)) :=
  ⟨rfl, rfl, rfl, rfl, rfl⟩

/-- Claim C4. For `merge(a, b)` on an interleaving of two well-behaved
non-erroring sources: every item from either source is forwarded downstream
unchanged and in delivery order; the downstream observer receives `complete`
exactly when BOTH sources have completed (the first completion alone is
recorded, not forwarded) and never receives an error.  And whenever a source
delivers the first error after an error-free prefix, that error is forwarded
downstream, the shared subscription is closed — so every later notification
from the other source is silenced — and nothing follows the error downstream. -/
theorem merge_spec {α ε : Type} (as bs : List α) (ca cb : Bool) (tr : List (MEv α ε))
    (hin : Interleave (mergeStream as ca) (mergeStream bs cb) tr) :
    nextsOf (mergeRun tr mergeInit).out = mNexts tr ∧
    completesOf (mergeRun tr mergeInit).out = (if ca && cb then 1 else 0) ∧
    errsOf (mergeRun tr mergeInit).out = [] ∧
    (∀ (pre post : List (MEv α ε)) (e : ε), mErrFree pre = true →
      (mergeRun (pre ++ MEv.err e :: post) mergeInit).out
        = (mergeRun pre mergeInit).out ++ [Ev.err e] ∧
      (mergeRun (pre ++ MEv.err e :: post) mergeInit).closed = true) := by
  have hef : mErrFree tr = true :=
    interleave_mErrFree hin (mergeStream_mErrFree as ca) (mergeStream_mErrFree bs cb)
  have habs := mergeRun_abs tr [] 0 mergeInit mergeInit_abs hef
  simp only [List.nil_append, Nat.zero_add] at habs
  obtain ⟨-, -, hnp, hcp, hep⟩ := habs
  have hcnt : mCompletes tr = (if ca then 1 else 0) + (if cb then 1 else 0) := by
    rw [interleave_mCompletes hin, mergeStream_mCompletes, mergeStream_mCompletes]
  refine ⟨hnp, ?_, hep, ?_⟩
  · rw [hcp, hcnt]
    cases ca <;> cases cb <;> simp
  · intro pre post e hpre
    have habs₂ := mergeRun_abs pre [] 0 mergeInit mergeInit_abs hpre
    simp only [List.nil_append, Nat.zero_add] at habs₂
    obtain ⟨hcl₂, -, -, -, -⟩ := habs₂
    have hsplit : mergeRun (pre ++ MEv.err e :: post) mergeInit
        = mergeRun post (mergeDeliver (mergeRun pre mergeInit) (MEv.err e)) := by
      simp [mergeRun, runFold_append]
    have hdel : mergeDeliver (mergeRun pre mergeInit) (MEv.err e)
        = { mergeRun pre mergeInit with
            out := (mergeRun pre mergeInit).out ++ [Ev.err e], closed := true } := by
      simp [mergeDeliver, hcl₂, mergeStep]
    rw [hsplit, hdel, mergeRun_closed post _ rfl]
    exact ⟨rfl, rfl⟩

/-- Witness for `merge_spec`: source A emits `1, 2` then completes, source B
emits `10` then completes, trace `A ++ B`; the error conjunct is instantiated
with prefix `[next 1]` and an error payload `0`. -/
theorem merge_spec_witness :
    nextsOf (mergeRun ((mergeStream [1, 2] true ++ mergeStream [10] true) : List (MEv Nat Nat))
        mergeInit).out
      = mNexts ((mergeStream [1, 2] true ++ mergeStream [10] true) : List (MEv Nat Nat)) ∧
    completesOf (mergeRun ((mergeStream [1, 2] true ++ mergeStream [10] true) :
        List (MEv Nat Nat)) mergeInit).out = (if true && true then 1 else 0) ∧
    errsOf (mergeRun ((mergeStream [1, 2] true ++ mergeStream [10] true) : List (MEv Nat Nat))
        mergeInit).out = [] ∧
    (∀ (pre post : List (MEv Nat Nat)) (e : Nat), mErrFree pre = true →
      (mergeRun (pre ++ MEv.err e :: post) mergeInit).out
        = (mergeRun pre mergeInit).out ++ [Ev.err e] ∧
      (mergeRun (pre ++ MEv.err e :: post) mergeInit).closed = true) :=
  merge_spec [1, 2] [10] true true _ (interleave_append _ _)

/-! Section `merge_all(concurrent)` — src/rxrust/src/ops/merge_all.rs

`LocalMergeAllObserver` tracks the number of subscribed inner observables
(`subscribed`), the bound `concurrent`, a FIFO `buffer` of pending inners, a
`completed` flag for the outer source and the chain subscription.  Inner
observables report through `LocalInnerObserver`s sharing this state. -/

/-- Events driving the merge-all state: outer `next` delivering an inner
observable (identified by `ι`), outer terminal events, and the notifications
of the currently subscribed inner observables. -/
inductive MAEv (ι α ε : Type) where
  | outerNext (i : ι)
  | outerErr (e : ε)
  | outerComplete
  | innerNext (v : α)
  | innerComplete
  | innerErr (e : ε)
  deriving DecidableEq

/-- State of `LocalMergeAllObserver`, extended with the order in which inner
observables were actually subscribed (`subsOrder`, the successive
`subscription.add(value.actual_subscribe(..))` calls) and the notifications
delivered downstream. -/
structure MAState (ι α ε : Type) where
  subscribed : Nat
  concurrent : Nat
  completed : Bool
  closed : Bool
  buffer : List ι
  subsOrder : List ι
  out : List (Ev α ε)
  deriving DecidableEq

/-- Methods `LocalMergeAllObserver::next/error/complete` (merge_all.rs lines 68-93)
and `LocalInnerObserver::next/error/complete` (lines 107-132). -/
def maStep {ι α ε : Type} (s : MAState ι α ε) : MAEv ι α ε → MAState ι α ε
  | MAEv.outerNext i =>
    if s.subscribed < s.concurrent then
      { s with subsOrder := s.subsOrder ++ [i], subscribed := s.subscribed + 1 }
    else
      { s with buffer := s.buffer ++ [i] }
  | MAEv.outerErr e =>
    { s with completed := true, out := s.out ++ [Ev.err e], closed := true }
  | MAEv.outerComplete =>
    if s.subscribed = 0 && s.buffer.isEmpty then
      { s with completed := true, out := s.out ++ [Ev.complete] }
    else { s with completed := true }
  | MAEv.innerNext v => { s with out := s.out ++ [Ev.next v] }
  | MAEv.innerComplete =>
    match s.buffer with
    | i :: rest => { s with buffer := rest, subsOrder := s.subsOrder ++ [i] }
    | [] =>
      if s.completed && s.subscribed - 1 = 0 then
        { s with subscribed := s.subscribed - 1, closed := true, out := s.out ++ [Ev.complete] }
      else { s with subscribed := s.subscribed - 1 }
  | MAEv.innerErr e =>
    { s with subscribed := s.subscribed - 1, out := s.out ++ [Ev.err e], closed := true }

/-- A run of the merge-all state machine. -/
def maRun {ι α ε : Type} (tr : List (MAEv ι α ε)) (s : MAState ι α ε) : MAState ι α ε :=
  runFold maStep tr s

/-- The observer as built by `MergeAllOp::actual_subscribe`:
`subscribed: 0`, empty buffer, not completed. -/
def maInit {ι α ε : Type} (c : Nat) : MAState ι α ε :=
  { subscribed := 0, concurrent := c, completed := false, closed := false,
    buffer := [], subsOrder := [], out := [] }

/-- An event is admissible in a state: nothing is delivered after the chain
subscription is closed, the outer source is well-behaved (no events after
its terminal), and inner notifications require a subscribed inner. -/
def maGuard {ι α ε : Type} (s : MAState ι α ε) : MAEv ι α ε → Bool
  | MAEv.outerNext _ => !s.closed && !s.completed
  | MAEv.outerErr _ => !s.closed && !s.completed
  | MAEv.outerComplete => !s.closed && !s.completed
  | MAEv.innerNext _ => !s.closed && decide (0 < s.subscribed)
  | MAEv.innerComplete => !s.closed && decide (0 < s.subscribed)
  | MAEv.innerErr _ => !s.closed && decide (0 < s.subscribed)

/-- A trace is valid from a state when every event is admissible in the state
reached at its position. -/
def maValid {ι α ε : Type} (s : MAState ι α ε) : List (MAEv ι α ε) → Bool
  | [] => true
  | e :: r => maGuard s e && maValid (maStep s e) r

/-- The inner observables delivered by the outer source, in arrival order. -/
def maArrivals {ι α ε : Type} : List (MAEv ι α ε) → List ι
  | [] => []
  | MAEv.outerNext i :: r => i :: maArrivals r
  | MAEv.outerErr _ :: r => maArrivals r
  | MAEv.outerComplete :: r => maArrivals r
  | MAEv.innerNext _ :: r => maArrivals r
  | MAEv.innerComplete :: r => maArrivals r
  | MAEv.innerErr _ :: r => maArrivals r

/-- Whether an event is an error notification. -/
def maEvErrFree {ι α ε : Type} : MAEv ι α ε → Bool
  | MAEv.outerErr _ => false
  | MAEv.innerErr _ => false
  | _ => true

/-- Whether a trace contains no error notification. -/
def maErrFree {ι α ε : Type} : List (MAEv ι α ε) → Bool
  | [] => true
  | e :: r => maEvErrFree e && maErrFree r

/-- The completion condition of the claim: outer completed, no subscribed
inner, and an empty pending buffer. -/
def maDone {ι α ε : Type} (s : MAState ι α ε) : Bool :=
  s.completed && decide (s.subscribed = 0) && s.buffer.isEmpty

/-- Invariant of the merge-all state: the concurrency bound is respected, the
subscription order concatenated with the pending FIFO buffer is exactly the
arrival order, and while the chain is live a non-empty buffer forces a full
active set. -/
def MAInv {ι α ε : Type} (c : Nat) (arr : List ι) (s : MAState ι α ε) : Prop :=
  s.concurrent = c ∧ s.subscribed ≤ c ∧ s.subsOrder ++ s.buffer = arr ∧
  (s.closed = false → s.buffer ≠ [] → c ≤ s.subscribed)

theorem maArrivals_cons {ι α ε : Type} (e : MAEv ι α ε) (tr : List (MAEv ι α ε)) :
    maArrivals (e :: tr) = maArrivals [e] ++ maArrivals tr := by
  cases e <;> simp [maArrivals]

theorem maStep_inv {ι α ε : Type} {c : Nat} {arr : List ι} {s : MAState ι α ε}
    (hinv : MAInv c arr s) (e : MAEv ι α ε) (hg : maGuard s e = true) :
    MAInv c (arr ++ maArrivals [e]) (maStep s e) := by
  obtain ⟨hcc, hsub, hfifo, haux⟩ := hinv
  cases e with
  | outerNext i =>
    simp only [maGuard, Bool.and_eq_true, Bool.not_eq_true'] at hg
    obtain ⟨hcl, hcm⟩ := hg
    simp only [maArrivals]
    by_cases hlt : s.subscribed < s.concurrent
    · have hbuf : s.buffer = [] := by
        by_contra hne
        have := haux hcl hne
        omega
      have hstep : maStep s (MAEv.outerNext i)
          = { s with subsOrder := s.subsOrder ++ [i], subscribed := s.subscribed + 1 } := by
        simp [maStep, hlt]
      rw [hstep]
      refine ⟨hcc, show s.subscribed + 1 ≤ c by omega, ?_, ?_⟩
      · show (s.subsOrder ++ [i]) ++ s.buffer = arr ++ [i]
        rw [hbuf] at hfifo ⊢
        simp at hfifo ⊢
        exact hfifo
      · intro _ hne
        rw [hbuf] at hne
        simp at hne
    · have hstep : maStep s (MAEv.outerNext i)
          = { s with buffer := s.buffer ++ [i] } := by
        simp [maStep, hlt]
      rw [hstep]
      refine ⟨hcc, hsub, ?_, ?_⟩
      · show s.subsOrder ++ (s.buffer ++ [i]) = arr ++ [i]
        rw [← List.append_assoc, hfifo]
      · intro _ _
        show c ≤ s.subscribed
        omega
  | outerErr e =>
    refine ⟨hcc, hsub, by simpa [maStep, maArrivals] using hfifo, ?_⟩
    intro hcl
    simp [maStep] at hcl
  | outerComplete =>
    simp only [maArrivals, List.append_nil]
    by_cases hend : s.subscribed = 0 && s.buffer.isEmpty
    · have hstep : maStep s MAEv.outerComplete
          = { s with completed := true, out := s.out ++ [Ev.complete] } := by
        simp only [maStep, hend, if_true]
      rw [hstep]
      exact ⟨hcc, hsub, hfifo, fun hcl hne => haux hcl hne⟩
    · have hstep : maStep s MAEv.outerComplete = { s with completed := true } := by
        simp only [maStep]
        rw [if_neg (by simpa using hend)]
      rw [hstep]
      exact ⟨hcc, hsub, hfifo, fun hcl hne => haux hcl hne⟩
  | innerNext v =>
    exact ⟨hcc, hsub, by simpa [maStep, maArrivals] using hfifo,
      fun hcl hne => haux hcl hne⟩
  | innerComplete =>
    simp only [maGuard, Bool.and_eq_true, Bool.not_eq_true'] at hg
    obtain ⟨hcl, hpos⟩ := hg
    simp only [maArrivals, List.append_nil]
    rcases hbuf : s.buffer with _ | ⟨i, rest⟩
    · by_cases hcval : s.completed && s.subscribed - 1 = 0
      · have hstep : maStep s MAEv.innerComplete
            = { s with subscribed := s.subscribed - 1, closed := true, out := s.out ++ [Ev.complete] } := by
          simp only [maStep, hbuf, hcval, if_true]
        rw [hstep]
        refine ⟨hcc, show s.subscribed - 1 ≤ c by omega, by simpa [hbuf] using hfifo, ?_⟩
        intro hclf
        simp at hclf
      · have hstep : maStep s MAEv.innerComplete
            = { s with subscribed := s.subscribed - 1 } := by
          simp only [maStep, hbuf]
          rw [if_neg (by simpa using hcval)]
        rw [hstep]
        refine ⟨hcc, show s.subscribed - 1 ≤ c by omega, by simpa [hbuf] using hfifo, ?_⟩
        intro _ hne
        simp [hbuf] at hne
    · have hstep : maStep s MAEv.innerComplete
          = { s with buffer := rest, subsOrder := s.subsOrder ++ [i] } := by
        simp only [maStep, hbuf]
      rw [hstep]
      refine ⟨hcc, hsub, ?_, ?_⟩
      · show (s.subsOrder ++ [i]) ++ rest = arr
        rw [hbuf] at hfifo
        simpa using hfifo
      · intro _ _
        exact haux hcl (by simp [hbuf])
  | innerErr e =>
    refine ⟨hcc, show s.subscribed - 1 ≤ c by omega, by simpa [maStep, maArrivals] using hfifo, ?_⟩
    intro hclf
    simp [maStep] at hclf

theorem maRun_inv {ι α ε : Type} (tr : List (MAEv ι α ε)) :
    ∀ {c : Nat} {arr : List ι} {s : MAState ι α ε}, MAInv c arr s →
    maValid s tr = true → MAInv c (arr ++ maArrivals tr) (maRun tr s) := by
  induction tr with
  | nil =>
    intro c arr s h _
    simpa [maRun, maArrivals] using h
  | cons e r ih =>
    intro c arr s h hv
    simp only [maValid, Bool.and_eq_true] at hv
    obtain ⟨hg, hvr⟩ := hv
    have h₁ := maStep_inv h e hg
    have h₂ := ih h₁ hvr
    rw [maArrivals_cons]
    simpa [maRun, List.append_assoc] using h₂

theorem maValid_append {ι α ε : Type} (t₁ t₂ : List (MAEv ι α ε)) :
    ∀ s : MAState ι α ε, maValid s (t₁ ++ t₂) = true →
    maValid s t₁ = true ∧ maValid (maRun t₁ s) t₂ = true := by
  induction t₁ with
  | nil =>
    intro s h
    exact ⟨rfl, by simpa [maRun] using h⟩
  | cons e r ih =>
    intro s h
    simp only [List.cons_append, maValid, Bool.and_eq_true] at h
    obtain ⟨hg, hrest⟩ := h
    obtain ⟨h₁, h₂⟩ := ih (maStep s e) hrest
    exact ⟨by simp [maValid, hg, h₁], by simpa [maRun] using h₂⟩

theorem maErrFree_append {ι α ε : Type} (t₁ t₂ : List (MAEv ι α ε)) :
    maErrFree (t₁ ++ t₂) = (maErrFree t₁ && maErrFree t₂) := by
  induction t₁ with
  | nil => simp [maErrFree]
  | cons e r ih => simp [maErrFree, ih, Bool.and_assoc]

theorem maStep_completes {ι α ε : Type} (s : MAState ι α ε) (e : MAEv ι α ε)
    (hg : maGuard s e = true) (hef : maEvErrFree e = true) :
    completesOf (maStep s e).out
      = completesOf s.out + (if maDone (maStep s e) = true then 1 else 0) := by
  cases e with
  | outerNext i =>
    simp only [maGuard, Bool.and_eq_true, Bool.not_eq_true'] at hg
    by_cases hlt : s.subscribed < s.concurrent
    · simp [maStep, hlt, maDone, hg.2]
    · simp [maStep, hlt, maDone, hg.2]
  | outerErr e => simp [maEvErrFree] at hef
  | outerComplete =>
    cases hend : (decide (s.subscribed = 0) && s.buffer.isEmpty) with
    | true =>
      have hand := hend
      simp only [Bool.and_eq_true, decide_eq_true_eq] at hand
      simp [maStep, hend, maDone, completesOf_append, completesOf, hand.1, hand.2]
    | false =>
      simp [maStep, hend, maDone]
  | innerNext v =>
    simp only [maGuard, Bool.and_eq_true, Bool.not_eq_true', decide_eq_true_eq] at hg
    have hne : ¬(s.subscribed = 0) := by omega
    simp [maStep, maDone, completesOf_append, completesOf, hne]
  | innerComplete =>
    simp only [maGuard, Bool.and_eq_true, Bool.not_eq_true', decide_eq_true_eq] at hg
    rcases hbuf : s.buffer with _ | ⟨i, rest⟩
    · cases hcval : (s.completed && decide (s.subscribed - 1 = 0)) with
      | true =>
        have hand := hcval
        simp only [Bool.and_eq_true, decide_eq_true_eq] at hand
        simp [maStep, hbuf, hcval, maDone, completesOf_append, completesOf, hand.1, hand.2]
      | false =>
        simp [maStep, hbuf, hcval, maDone]
    · have hne : ¬(s.subscribed = 0) := by omega
      simp [maStep, hbuf, maDone, hne]
  | innerErr e => simp [maEvErrFree] at hef

theorem maInit_inv {ι α ε : Type} (c : Nat) : MAInv c [] (maInit (ι := ι) (α := α) (ε := ε) c) :=
  ⟨rfl, Nat.zero_le c, rfl, fun _ hne => absurd rfl hne⟩

/-- Claim C3. For `merge_all(concurrent)` over any valid event trace (no events
after the chain closes, outer source well-behaved, inner events only while an
inner is subscribed): (1) the number of concurrently subscribed inner
observables never exceeds `concurrent` — at every prefix of the trace; (2)
pending inners are buffered in FIFO order: the inners subscribed so far
followed by the pending buffer are exactly the outer arrivals in order, so
on an inner completion the next buffered inner (if any) is the oldest one;
(3) on an error-free trace, each step delivers `complete` downstream exactly
when afterwards the outer source has completed, the active count is 0 and the
queue is empty; (4) an inner error is forwarded downstream and closes
(unsubscribes) the whole chain. -/
theorem merge_all_spec {ι α ε : Type} (c : Nat) (tr : List (MAEv ι α ε))
    (hv : maValid (maInit c) tr = true) :
    (∀ tr₁ tr₂ : List (MAEv ι α ε), tr = tr₁ ++ tr₂ →
      (maRun tr₁ (maInit c)).subscribed ≤ c) ∧
    (maRun tr (maInit c)).subsOrder ++ (maRun tr (maInit c)).buffer = maArrivals tr ∧
    (maErrFree tr = true → ∀ (tr₁ tr₂ : List (MAEv ι α ε)) (e : MAEv ι α ε),
      tr = tr₁ ++ e :: tr₂ →
      completesOf (maRun (tr₁ ++ [e]) (maInit c)).out
        = completesOf (maRun tr₁ (maInit c)).out
          + (if maDone (maRun (tr₁ ++ [e]) (maInit c)) = true then 1 else 0)) ∧
    (∀ (s : MAState ι α ε) (e : ε),
      (maStep s (MAEv.innerErr e)).out = s.out ++ [Ev.err e] ∧
      (maStep s (MAEv.innerErr e)).closed = true) := by
  refine ⟨?_, ?_, ?_, ?_⟩
  · intro tr₁ tr₂ htr
    subst htr
    obtain ⟨hv₁, -⟩ := maValid_append tr₁ tr₂ (maInit c) hv
    have := maRun_inv tr₁ (maInit_inv c) hv₁
    exact this.2.1
  · have := maRun_inv tr (maInit_inv c) hv
    simpa using this.2.2.1
  · intro hef tr₁ tr₂ e htr
    subst htr
    obtain ⟨hv₁, hv₂⟩ := maValid_append tr₁ (e :: tr₂) (maInit c) hv
    simp only [maValid, Bool.and_eq_true] at hv₂
    have hg : maGuard (maRun tr₁ (maInit c)) e = true := hv₂.1
    have hefe : maEvErrFree e = true := by
      rw [maErrFree_append] at hef
      simp only [Bool.and_eq_true, maErrFree] at hef
      exact hef.2.1
    have hsplit : maRun (tr₁ ++ [e]) (maInit c) = maStep (maRun tr₁ (maInit c)) e := by
      simp [maRun, runFold_append]
    rw [hsplit]
    exact maStep_completes (maRun tr₁ (maInit c)) e hg hefe
  · intro s e
    exact ⟨rfl, rfl⟩

/-- Witness for `merge_all_spec`: `concurrent = 1`, two inner observables
where the second is buffered until the first completes, then the outer
completes after both inners have. -/
theorem merge_all_spec_witness :
    (∀ tr₁ tr₂ : List (MAEv Nat Nat Nat),
      ([MAEv.outerNext 0, MAEv.outerNext 1, MAEv.innerComplete, MAEv.innerComplete,
        MAEv.outerComplete] : List (MAEv Nat Nat Nat)) = tr₁ ++ tr₂ →
      (maRun tr₁ (maInit 1)).subscribed ≤ 1) ∧
    (maRun ([MAEv.outerNext 0, MAEv.outerNext 1, MAEv.innerComplete, MAEv.innerComplete,
        MAEv.outerComplete] : List (MAEv Nat Nat Nat)) (maInit 1)).subsOrder ++
      (maRun ([MAEv.outerNext 0, MAEv.outerNext 1, MAEv.innerComplete, MAEv.innerComplete,
        MAEv.outerComplete] : List (MAEv Nat Nat Nat)) (maInit 1)).buffer
      = maArrivals ([MAEv.outerNext 0, MAEv.outerNext 1, MAEv.innerComplete,
        MAEv.innerComplete, MAEv.outerComplete] : List (MAEv Nat Nat Nat)) ∧
    (maErrFree ([MAEv.outerNext 0, MAEv.outerNext 1, MAEv.innerComplete, MAEv.innerComplete,
        MAEv.outerComplete] : List (MAEv Nat Nat Nat)) = true →
      ∀ (tr₁ tr₂ : List (MAEv Nat Nat Nat)) (e : MAEv Nat Nat Nat),
      ([MAEv.outerNext 0, MAEv.outerNext 1, MAEv.innerComplete, MAEv.innerComplete,
        MAEv.outerComplete] : List (MAEv Nat Nat Nat)) = tr₁ ++ e :: tr₂ →
      completesOf (maRun (tr₁ ++ [e]) (maInit 1)).out
        = completesOf (maRun tr₁ (maInit 1)).out
          + (if maDone (maRun (tr₁ ++ [e]) (maInit 1)) = true then 1 else 0)) ∧
    (∀ (s : MAState Nat Nat Nat) (e : Nat),
      (maStep s (MAEv.innerErr e)).out = s.out ++ [Ev.err e] ∧
      (maStep s (MAEv.innerErr e)).closed = true) :=
  merge_all_spec 1
    [MAEv.outerNext 0, MAEv.outerNext 1, MAEv.innerComplete, MAEv.innerComplete,
      MAEv.outerComplete]
    (by decide)

/-! Section `reduce(f)` — src/rxrust/src/ops.rs

src/rxrust/src/ops.rs lines 45-51 fix the structure of the aggregators:
`ReduceOp<Source, BinaryOp, OutputItem> =
DefaultIfEmptyOp<LastOp<ScanOp<Source, BinaryOp, OutputItem>, OutputItem>>`,
with `SumOp` and `CountOp` as instances of the same composition.  The files
scan.rs, last.rs, default_if_empty.rs and the fluent `reduce` builder are not
under src/; their semantics are modelled from the spec (§4.3) below, as
event-list transformers. -/

/-- Modelled from the spec: `scan(seed, f)` "emits running accumulation;
emits `f(acc, x)` for every `x`" (§4.3 Transforming), forwarding terminal
events — src/rxrust/src/ops/scan.rs is not under src/. -/
def scanOp {α β ε : Type} (f : β → α → β) : β → List (Ev α ε) → List (Ev β ε)
  | _, [] => []
  | acc, Ev.next v :: r => Ev.next (f acc v) :: scanOp f (f acc v) r
  | acc, Ev.err e :: r => Ev.err e :: scanOp f acc r
  | acc, Ev.complete :: r => Ev.complete :: scanOp f acc r

/-- Modelled from the spec: `last()` "emits the most recent item then
completes; empty upstream → complete only" (§4.2/§4.3), forwarding errors —
src/rxrust/src/ops/last.rs is not under src/. -/
def lastOp {β ε : Type} : Option β → List (Ev β ε) → List (Ev β ε)
  | _, [] => []
  | _, Ev.next v :: r => lastOp (some v) r
  | last, Ev.err e :: r => Ev.err e :: lastOp last r
  | last, Ev.complete :: r =>
    (match last with
     | some v => [Ev.next v, Ev.complete]
     | none => [Ev.complete]) ++ lastOp last r

/-- Modelled from the spec: `default_if_empty(d)` "emits `d` then completes
if upstream completes without emitting" (§4.3 Transforming) —
src/rxrust/src/ops/default_if_empty.rs is not under src/.  The `Bool`
argument is the is-empty-so-far flag, initially `true`. -/
def defaultIfEmptyOp {β ε : Type} (d : β) : Bool → List (Ev β ε) → List (Ev β ε)
  | _, [] => []
  | _, Ev.next v :: r => Ev.next v :: defaultIfEmptyOp d false r
  | isEmpty, Ev.err e :: r => Ev.err e :: defaultIfEmptyOp d isEmpty r
  | isEmpty, Ev.complete :: r =>
    (if isEmpty then [Ev.next d, Ev.complete] else [Ev.complete])
      ++ defaultIfEmptyOp d isEmpty r

/-- The `ReduceOp` composition of src/rxrust/src/ops.rs lines 45-51:
`DefaultIfEmptyOp` applied to `LastOp` applied to `ScanOp`, with the seed
both as scan seed and as the default value (the spec's
`reduce_initial(seed, f)`; `reduce(f)` instantiates the seed with the output
type's zero/default, as `sum`/`count` do). -/
def reduceOp {α β ε : Type} (f : β → α → β) (d : β) (upstream : List (Ev α ε)) :
    List (Ev β ε) :=
  defaultIfEmptyOp d true (lastOp none (scanOp f d upstream))

/-- The running accumulations of `scan`. -/
def scanAccs {α β : Type} (f : β → α → β) : β → List α → List β
  | _, [] => []
  | acc, v :: r => f acc v :: scanAccs f (f acc v) r

/-- The most recent item, starting from an already-seen one. -/
def lastOf {β : Type} : Option β → List β → Option β
  | l, [] => l
  | _, v :: r => lastOf (some v) r

theorem scanOp_run {α β ε : Type} (f : β → α → β) (vs : List α) :
    ∀ acc : β, scanOp (ε := ε) f acc (vs.map Ev.next ++ [Ev.complete])
      = (scanAccs f acc vs).map Ev.next ++ [Ev.complete] := by
  induction vs with
  | nil => intro acc; rfl
  | cons v r ih =>
    intro acc
    simpa [scanOp, scanAccs] using ih (f acc v)

theorem lastOp_run {β ε : Type} (ws : List β) :
    ∀ l : Option β, lastOp (ε := ε) l (ws.map Ev.next ++ [Ev.complete])
      = (match lastOf l ws with
         | some v => [Ev.next v, Ev.complete]
         | none => [Ev.complete]) := by
  induction ws with
  | nil =>
    intro l
    cases l <;> rfl
  | cons w r ih =>
    intro l
    simpa [lastOp, lastOf] using ih (some w)

theorem lastOf_scanAccs {α β : Type} (f : β → α → β) (vs : List α) :
    ∀ (acc : β) (l : Option β), vs ≠ [] →
    lastOf l (scanAccs f acc vs) = some (vs.foldl f acc) := by
  induction vs with
  | nil => intro acc l h; exact absurd rfl h
  | cons v r ih =>
    intro acc l _
    cases r with
    | nil => rfl
    | cons w u =>
      simp only [scanAccs, lastOf, List.foldl_cons]
      exact ih (f acc v) (some (f acc v)) (by simp)

/-- Claim C6, counterexample. On an upstream that completes without emitting
any item, `reduce(f)` does not emit nothing: the `DefaultIfEmptyOp` layer of
the `ReduceOp` composition necessarily emits its default value before
`complete`.  Concretely for `f = (+)` on `Nat` with default/seed `0`, the
empty upstream yields `[next 0, complete]`, not `[complete]`. -/
theorem reduce_empty_counterexample :
    reduceOp (fun a v => a + v) 0 ([Ev.complete] : List (Ev Nat Unit))
      = [Ev.next 0, Ev.complete] ∧
    reduceOp (fun a v => a + v) 0 ([Ev.complete] : List (Ev Nat Unit))
      ≠ [Ev.complete] :=
  ⟨rfl, by decide⟩

/-- Claim C6, amended. `reduce(f)` (the `ReduceOp` composition
`DefaultIfEmptyOp∘LastOp∘ScanOp` of ops.rs, built with seed/default `d`)
emits on any upstream `vs` followed by `complete` exactly one value — the
final fold `vs.foldl f d` — and then `complete`; in particular on an empty
upstream it emits the default `d` (the zero of the output type) and then
`complete`, exactly as `sum`/`count`/`reduce_initial` do, not nothing. -/
theorem reduce_amended {α β ε : Type} (f : β → α → β) (d : β) (vs : List α) :
    reduceOp f d ((vs.map Ev.next ++ [Ev.complete]) : List (Ev α ε))
      = [Ev.next (vs.foldl f d), Ev.complete] := by
  cases vs with
  | nil => rfl
  | cons v r =>
    have h₁ := scanOp_run (ε := ε) f (v :: r) d
    have h₂ := lastOp_run (ε := ε) (scanAccs f d (v :: r)) none
    have h₃ := lastOf_scanAccs f (v :: r) d none (by simp)
    simp only [reduceOp, h₁, h₂, h₃]
    rfl
